import Mathlib

/-!
Verification of the quattor documentation builder
(`src/documentation_builder/lib/quattordocbuild/builder.py`).

The Python functions are embedded shallowly:

* Python dicts become association lists (`List (String × α)`) iterated in
  insertion order; `alookup`/`aset` give Python's read and update semantics.
* `str` values become Lean `String`s; the Python substring test `t in s`,
  `str.split`, `str.replace` and `os.path.splitext` are re-implemented over
  `List Char` with the exact CPython semantics.
* `logger.error` calls become an explicit error log threaded through the
  functions; `sys.exit` / uncaught exceptions become `Option`/`Except`
  results.
-/

namespace QuattorDocBuild

/-- Python's substring test `t in s` (`True` iff `t` occurs contiguously in `s`). -/
def listIsSub (t : List Char) : List Char → Bool
  | [] => t.isEmpty
  | c :: cs => t.isPrefixOf (c :: cs) || listIsSub t cs

/-- Python `t in s` on strings. -/
def pyIn (t s : String) : Bool := listIsSub t.data s.data

/-- Right-most index of a character, used to model `str.rfind`. -/
def lastIndexOfAux (c : Char) : List Char → Nat → Option Nat
  | [], _ => none
  | x :: xs, i =>
    match lastIndexOfAux c xs (i + 1) with
    | some j => some j
    | none => if x = c then some i else none

/-- Right-most index of `c` in `l` (Python `l.rfind(c)`, `none` for `-1`). -/
def lastIndexOf (c : Char) (l : List Char) : Option Nat := lastIndexOfAux c l 0

/-- Python `os.path.splitext(p)[0]` (posixpath): drop the extension after the
last dot of the final path component, unless that component consists only of
leading dots up to that position. -/
def splitextRoot (p : String) : String :=
  let l := p.data
  let start := match lastIndexOf '/' l with | none => 0 | some i => i + 1
  match lastIndexOf '.' l with
  | none => p
  | some d =>
    if start ≤ d ∧ ((l.drop start).take (d - start)).any (fun c => c ≠ '.') then
      ⟨l.take d⟩
    else p

/-- Python `str.split(sep)` for a non-empty separator: split on non-overlapping
occurrences, scanning left to right.  `fuel` bounds the recursion; the wrappers
pass enough fuel that it is never exhausted for a non-empty separator. -/
def splitOnL (sep : List Char) : Nat → List Char → List Char → List (List Char)
  | 0, s, acc => [acc.reverse ++ s]
  | fuel + 1, s, acc =>
    match s with
    | [] => [acc.reverse]
    | c :: cs =>
      if sep.isPrefixOf (c :: cs) then
        acc.reverse :: splitOnL sep fuel (List.drop sep.length (c :: cs)) []
      else
        splitOnL sep fuel cs (c :: acc)

/-- Python `s.split(sep)` (non-empty `sep`; an empty `sep` raises in Python and
is excluded by hypothesis wherever it matters). -/
def pySplit (s sep : String) : List String :=
  (splitOnL sep.data (s.data.length + 1) s.data []).map (fun l => (⟨l⟩ : String))

/-- Python `s.replace(old, new)` for non-empty `old`. -/
def pyReplace (s old new : String) : String :=
  ⟨List.intercalate new.data (splitOnL old.data (s.data.length + 1) s.data [])⟩

/-- Python dict read `d[k]` (first — and in a dict, only — binding of `k`). -/
def alookup {α : Type} (k : String) : List (String × α) → Option α
  | [] => none
  | (k', v) :: t => if k' = k then some v else alookup k t

/-- Python dict write `d[k] = v`: update in place if the key exists, else
append (insertion order preserved). -/
def aset {α : Type} (k : String) (v : α) : List (String × α) → List (String × α)
  | [] => [(k, v)]
  | (k', v') :: t => if k' = k then (k', v) :: t else (k', v') :: aset k v t

/-- One repository's entry in the operator-supplied repository map. -/
structure RepoDesc where
  sitesection : String
  targets : List String
deriving DecidableEq

/-- Inner dict: page (or source) name → markdown content. -/
abbrev PageMap := List (String × String)

/-- `markdownlist`: repository → (source path → markdown). -/
abbrev Catalog := List (String × PageMap)

/-- `sitepages`: section → (canonical page name → markdown). -/
abbrev SitePages := List (String × PageMap)

/-- The `logger.error` reports of `build_site_structure`: the source path and
the target list for which no marker matched. -/
abbrev ErrorLog := List (String × List String)

/-- The inner loop of `build_site_structure` (builder.py lines 98-104): scan
`targets` in order, and the first marker occurring in `source` determines the
new name; the `found` flag makes later markers irrelevant. -/
def pageNameFor (targets : List String) (source : String) : Option String :=
  match targets with
  | [] => none
  | t :: ts => if pyIn t source then some (newName t source) else pageNameFor ts source
where
  /-- builder.py lines 101-102: `source.split(target)[-1]`, then
  `os.path.splitext(...)[0].replace("/", "::") + ".md"`. -/
  newName (target source : String) : String :=
    pyReplace (splitextRoot ((pySplit source target).getLastD source)) "/" "::" ++ ".md"

/-- Per-repository page loop of `build_site_structure` (lines 97-106):
matched pages are stored under their new name in the repo's site section,
unmatched pages are reported to the error log. -/
def processPages (sitesection : String) (targets : List String) :
    PageMap → SitePages → ErrorLog → SitePages × ErrorLog
  | [], sp, errs => (sp, errs)
  | (source, markdown) :: rest, sp, errs =>
    match pageNameFor targets source with
    | some nm =>
      let inner := (alookup sitesection sp).getD []
      processPages sitesection targets rest (aset sitesection (aset nm markdown inner) sp) errs
    | none => processPages sitesection targets rest sp (errs ++ [(source, targets)])

/-- Repository loop of `build_site_structure` (lines 90-107).  A repository
absent from `repository_map` raises `KeyError` in Python, modelled as `none`.
Note `sitepages[sitesection] = {}` (line 94) runs unconditionally for every
repository. -/
def buildAux (repository_map : List (String × RepoDesc)) :
    Catalog → SitePages → ErrorLog → Option (SitePages × ErrorLog)
  | [], sp, errs => some (sp, errs)
  | (repo, markdowns) :: rest, sp, errs =>
    match alookup repo repository_map with
    | none => none
    | some desc =>
      let res := processPages desc.sitesection desc.targets markdowns
        (aset desc.sitesection [] sp) errs
      buildAux repository_map rest res.1 res.2

/-- `build_site_structure(markdownlist, repository_map)` (lines 88-107),
returning the site pages together with the error log. -/
def build_site_structure (markdownlist : Catalog)
    (repository_map : List (String × RepoDesc)) : Option (SitePages × ErrorLog) :=
  buildAux repository_map markdownlist [] []

/-- The repository loop picks exactly the first matching marker. -/
theorem pageNameFor_eq_find (targets : List String) (p : String) :
    pageNameFor targets p =
      (targets.find? (fun t => pyIn t p)).map (fun t => pageNameFor.newName t p) := by
  induction targets with
  | nil => rfl
  | cons t ts ih =>
    by_cases h : pyIn t p = true
    · simp [pageNameFor, List.find?, h]
    · simp [pageNameFor, List.find?, h, ih]

/-! ### The regex fragment used by `replace_regex_link`

`replace_regex_link` (lines 139-148) builds the pattern `( |^|\n)BODY([,. $])`
and calls `re.sub` with replacement `\g<1>[basename](link)\g<2>`.  The bodies
produced by `make_interlinks` use only literal characters, backslash escapes
(`\[`, `\]`, `\(`, `\)`) and — through page basenames and the metacpan URL —
the `.` wildcard, so the body sublanguage modelled here is: a backslash
escapes the next character, `.` matches any character except a newline, and
every other character matches itself.  `re.sub` replaces the leftmost
non-overlapping matches, scanning left to right; `^` (without `re.MULTILINE`)
matches only at the very start of the string. -/

/-- One compiled token of a pattern body. -/
inductive RTok where
  | lit (c : Char)
  | anyc
deriving DecidableEq

/-- Compile a pattern body (backslash escapes the next char, `.` is the
wildcard, all else literal; a trailing lone backslash would raise in Python
and is never produced here). -/
def parsePat : List Char → List RTok
  | [] => []
  | c :: rest =>
    if c = '\\' then
      match rest with
      | [] => [.lit '\\']
      | d :: rest' => .lit d :: parsePat rest'
    else if c = '.' then .anyc :: parsePat rest
    else .lit c :: parsePat rest

/-- Does one token match one character? -/
def tokMatch : RTok → Char → Bool
  | .lit c, d => c = d
  | .anyc, d => d ≠ '\n'

/-- Match the body tokens against a prefix of `s`, returning the remainder. -/
def bodyMatch : List RTok → List Char → Option (List Char)
  | [], s => some s
  | _ :: _, [] => none
  | t :: ts, c :: cs => if tokMatch t c then bodyMatch ts cs else none

/-- The trailing character class `[,. $]`. -/
def isTrailer (c : Char) : Bool := c = ',' || c = '.' || c = ' ' || c = '$'

/-- Body followed by one trailer character. -/
def afterBody (toks : List RTok) (s : List Char) : Option (Char × List Char) :=
  match bodyMatch toks s with
  | some (t :: rest) => if isTrailer t then some (t, rest) else none
  | _ => none

/-- Third alternative of the leading group: a newline boundary. -/
def tryNl (toks : List RTok) (s : List Char) : Option (List Char × Char × List Char) :=
  match s with
  | [] => none
  | c :: cs =>
    if c = '\n' then
      match afterBody toks cs with
      | some (t, rest) => some (['\n'], t, rest)
      | none => none
    else none

/-- Second alternative: `^`, an empty match at the start of the string. -/
def tryCaret (toks : List RTok) (atStart : Bool) (s : List Char) :
    Option (List Char × Char × List Char) :=
  if atStart then
    match afterBody toks s with
    | some (t, rest) => some ([], t, rest)
    | none => tryNl toks s
  else tryNl toks s

/-- Try a match of `( |^|\n)BODY([,. $])` at the current position, returning
the captured boundary, the trailer and the rest of the input.  The
alternatives are tried in the regex's order: space, `^`, newline. -/
def tryAt (toks : List RTok) (atStart : Bool) (s : List Char) :
    Option (List Char × Char × List Char) :=
  match s with
  | [] => tryCaret toks atStart []
  | c :: cs =>
    if c = ' ' then
      match afterBody toks cs with
      | some (t, rest) => some ([' '], t, rest)
      | none => tryCaret toks atStart (c :: cs)
    else tryCaret toks atStart (c :: cs)

/-- Left-to-right scan of `re.sub`: at each position try a match; on success
emit boundary, replacement and trailer and continue after the match, else
advance one character.  `fuel` bounds the recursion (every step consumes at
least one character, so `length + 1` fuel always suffices). -/
def subScan (toks : List RTok) (repl : List Char) : Nat → Bool → List Char → List Char
  | 0, _, s => s
  | fuel + 1, atStart, s =>
    match tryAt toks atStart s with
    | some (b, t, rest) => b ++ repl ++ t :: subScan toks repl fuel false rest
    | none =>
      match s with
      | [] => []
      | c :: cs => c :: subScan toks repl fuel false cs

/-- `re.sub(r'( |^|\n)%s([,. $])' % regex, "\g<1>[basename](link)\g<2>", content)`. -/
def regexSub (regex basename link content : String) : String :=
  ⟨subScan (parsePat regex.data) ("[" ++ basename ++ "](" ++ link ++ ")").data
    (content.data.length + 1) true content.data⟩

/-- `replace_regex_link(pages, regex, basename, link)` (lines 139-148): every
page whose name does not contain the basename (or whose basename is the
special term `Quattor`) and whose content does contain it gets the
substitution applied.  Python mutates the page entries in place while
iterating; keys never change, so this is a map over the values. -/
def replace_regex_link (pages : SitePages) (regex basename link : String) : SitePages :=
  pages.map (fun sec => (sec.1, sec.2.map (fun pg =>
    (pg.1,
      if (!(pyIn basename pg.1) || basename == "Quattor") && pyIn basename pg.2 then
        regexSub regex basename link pg.2
      else pg.2))))

/-- The metacpan URL fragment (line 122). -/
def cpans : String := "https://metacpan.org/pod/"

/-- The candidate patterns for one page (lines 116-131), in append order. -/
def pageRegexes (subdir page : String) : List String :=
  let basename := splitextRoot page
  ["`" ++ basename ++ "`", "`" ++ subdir ++ "::" ++ basename ++ "`"]
  ++ (if subdir = "CCM" then [cpansPat "EDG::WP4::CCM" basename] else [])
  ++ (if subdir = "Unittest" then [cpansPat "Test" basename] else [])
  ++ (if subdir = "components" ∨ subdir = "components-grid" then
        [cpansPat "NCM::Component" basename,
         "`ncm-" ++ basename ++ "`", "ncm-" ++ basename]
      else [])
where
  /-- `"\[{2}::{0}\]\({1}{2}::{0}\)".format(basename, cpans, ns)`. -/
  cpansPat (ns basename : String) : String :=
    "\\[" ++ ns ++ "::" ++ basename ++ "\\]\\(" ++ cpans ++ ns ++ "::" ++ basename ++ "\\)"

/-- All (pattern, basename, link) rewrite triples of `make_interlinks`
(lines 114-133), in iteration order over sections and pages.  The loop reads
only the keys of `pages`, which `replace_regex_link` never changes, so the
triples are those of the original catalog. -/
def interlinkTriples (pages : SitePages) : List (String × String × String) :=
  pages.flatMap (fun sec =>
    sec.2.flatMap (fun pg =>
      (pageRegexes sec.1 pg.1).map (fun r =>
        (r, splitextRoot pg.1, "../" ++ sec.1 ++ "/" ++ pg.1))))

/-- `make_interlinks(pages)` (lines 110-136): fold every rewrite triple over
the catalog. -/
def make_interlinks (pages : SitePages) : SitePages :=
  (interlinkTriples pages).foldl
    (fun acc tr => replace_regex_link acc tr.1 tr.2.1 tr.2.2) pages

/-- C1: if some target marker of the repository occurs in the source path,
`build_site_structure` files the page under the canonical name obtained from
the first matching marker `t0`: the suffix of the path after (the last
occurrence of) `t0`, with the extension stripped, `/` replaced by `::`, and
`.md` appended.  (`t0 ≠ ""` excludes the empty marker, on which Python's
`str.split` would raise `ValueError`.) -/
theorem build_site_structure_canonical_name
    (repo sect : String) (targets : List String) (p md t0 : String)
    (hfind : targets.find? (fun t => pyIn t p) = some t0)
    (hne : t0 ≠ "") :
    build_site_structure [(repo, [(p, md)])] [(repo, ⟨sect, targets⟩)] =
      some ([(sect,
        [(pyReplace (splitextRoot ((pySplit p t0).getLastD p)) "/" "::" ++ ".md", md)])], []) := by
  have hname : pageNameFor targets p = some (pageNameFor.newName t0 p) := by
    rw [pageNameFor_eq_find, hfind]; rfl
  simp [build_site_structure, buildAux, alookup, processPages, hname, aset,
    pageNameFor.newName]

/-- Witness for C1 at spec Example 1: marker `EDG/WP4/CCM/` maps
`.../CCM/target/doc/pod/EDG/WP4/CCM/Fetch/Download.pod` to `Fetch::Download.md`. -/
theorem build_site_structure_canonical_name_witness :
    build_site_structure
        [("CCM", [("/tmp/qdoc/src/CCM/target/doc/pod/EDG/WP4/CCM/Fetch/Download.pod", "# NAME")])]
        [("CCM", ⟨"CCM", ["EDG/WP4/CCM/"]⟩)] =
      some ([("CCM", [("Fetch::Download.md", "# NAME")])], []) := by
  have h := build_site_structure_canonical_name "CCM" "CCM" ["EDG/WP4/CCM/"]
    "/tmp/qdoc/src/CCM/target/doc/pod/EDG/WP4/CCM/Fetch/Download.pod" "# NAME"
    "EDG/WP4/CCM/" (by decide) (by decide)
  rw [h]
  decide

/-- C3: with `fmonagent.md` in section `components-grid`, a `components` page
containing ``I refer to `fmonagent`.`` is rewritten to
`I refer to [fmonagent](../components-grid/fmonagent.md).`, and content
``I refer to `ncm-fmonagent`.`` is rewritten to the identical link text. -/
theorem make_interlinks_fmonagent_examples :
    make_interlinks
        [("components-grid", [("fmonagent.md", "")]),
         ("components", [("icinga.md", "I refer to `fmonagent`.")])] =
      [("components-grid", [("fmonagent.md", "")]),
       ("components", [("icinga.md",
          "I refer to [fmonagent](../components-grid/fmonagent.md).")])] ∧
    make_interlinks
        [("components-grid", [("fmonagent.md", "")]),
         ("components", [("icinga.md", "I refer to `ncm-fmonagent`.")])] =
      [("components-grid", [("fmonagent.md", "")]),
       ("components", [("icinga.md",
          "I refer to [fmonagent](../components-grid/fmonagent.md).")])] := by
  constructor <;> decide

/-- Look up one page's content in a site catalog. -/
def pageContent (pages : SitePages) (subdir page : String) : Option String :=
  (alookup subdir pages).bind (alookup page)

/-- `alookup` commutes with a (key-dependent) map over the values. -/
theorem alookup_map {α β : Type} (f : String → α → β) (k : String)
    (l : List (String × α)) :
    alookup k (l.map (fun p => (p.1, f p.1 p.2))) = (alookup k l).map (f k) := by
  induction l with
  | nil => rfl
  | cons hd tl ih =>
    by_cases h : hd.1 = k
    · simp [alookup, h]
    · simp [alookup, h, ih]

/-- What `replace_regex_link` does to a single page, as an equation on
`pageContent`: the content is substituted exactly when the eligibility guard
of line 145 holds, else untouched. -/
theorem pageContent_replace_regex_link (pages : SitePages)
    (regex basename link subdir page : String) :
    pageContent (replace_regex_link pages regex basename link) subdir page =
      (pageContent pages subdir page).map (fun content =>
        if (!(pyIn basename page) || basename == "Quattor") && pyIn basename content then
          regexSub regex basename link content
        else content) := by
  induction pages with
  | nil => rfl
  | cons sec rest ih =>
    by_cases h : sec.1 = subdir
    · simp only [pageContent, replace_regex_link, List.map, alookup, h, if_pos]
      simpa using alookup_map (fun name content =>
        if (!(pyIn basename name) || basename == "Quattor") && pyIn basename content then
          regexSub regex basename link content else content) page sec.2
    · simp only [pageContent, replace_regex_link, List.map, alookup, h, if_neg,
        not_false_iff] at ih ⊢
      exact ih

/-- C4: a page whose own name contains the candidate basename is never
rewritten by `replace_regex_link` — its content comes back unchanged, so a
page never gains a link to itself — except that the fixed basename
`"Quattor"` may rewrite even a page whose name contains it (second conjunct:
a concrete catalog where such a page does change). -/
theorem replace_regex_link_no_self_link :
    (∀ (pages : SitePages) (regex basename link subdir page content : String),
        pageContent pages subdir page = some content →
        pyIn basename page = true → basename ≠ "Quattor" →
        pageContent (replace_regex_link pages regex basename link) subdir page
          = some content) ∧
    (∃ pages : SitePages, ∃ subdir page : String,
        pyIn "Quattor" page = true ∧
        pageContent (replace_regex_link pages "`Quattor`" "Quattor" "../x/Quattor.md")
            subdir page ≠ pageContent pages subdir page) := by
  constructor
  · intro pages regex basename link subdir page content hc hin hq
    rw [pageContent_replace_regex_link, hc]
    simp [hin, hq]
  · refine ⟨[("x", [("Quattor-intro.md", " `Quattor`.")])], "x", "Quattor-intro.md",
      by decide, by decide⟩

/-- Witness for C4: instantiating the first conjunct on the repository's own
test input (`icinga.md` containing `` `icinga` `` is not rewritten for target
basename `icinga`). -/
theorem replace_regex_link_no_self_link_witness :
    pageContent
        (replace_regex_link [("comps", [("icinga.md", "ref to `icinga` and `ncm-icinga`.")])]
          "`icinga`" "icinga" "../comps/icinga.md")
        "comps" "icinga.md" = some "ref to `icinga` and `ncm-icinga`." := by
  exact replace_regex_link_no_self_link.1
    [("comps", [("icinga.md", "ref to `icinga` and `ncm-icinga`.")])]
    "`icinga`" "icinga" "../comps/icinga.md" "comps" "icinga.md"
    "ref to `icinga` and `ncm-icinga`." (by decide) (by decide) (by decide)

theorem alookup_aset_self {α : Type} (k : String) (v : α) (l : List (String × α)) :
    alookup k (aset k v l) = some v := by
  induction l with
  | nil => simp [aset, alookup]
  | cons hd tl ih =>
    by_cases h : hd.1 = k
    · simp [aset, alookup, h]
    · simp [aset, alookup, h, ih]

theorem alookup_aset_ne {α : Type} {k k' : String} (h : k' ≠ k) (v : α)
    (l : List (String × α)) : alookup k (aset k' v l) = alookup k l := by
  induction l with
  | nil => simp [aset, alookup, h]
  | cons hd tl ih =>
    by_cases h' : hd.1 = k'
    · simp [aset, alookup, h', h, ih]
    · simp only [aset, if_neg h']
      by_cases h'' : hd.1 = k
      · simp [alookup, h'']
      · simp [alookup, h'', ih]

/-- `processPages` touches no section other than its own. -/
theorem processPages_alookup_ne {s sect : String} (h : s ≠ sect)
    (targets : List String) (pm : PageMap) (sp : SitePages) (errs : ErrorLog) :
    alookup s (processPages sect targets pm sp errs).1 = alookup s sp := by
  induction pm generalizing sp errs with
  | nil => rfl
  | cons pg rest ih =>
    obtain ⟨source, markdown⟩ := pg
    simp only [processPages]
    cases pageNameFor targets source with
    | some nm => rw [ih, alookup_aset_ne (fun hc => h hc.symm)]
    | none => rw [ih]

/-- The inner dict that one repository's page loop builds at its section. -/
def insertMatched (targets : List String) : PageMap → PageMap → PageMap
  | [], inner => inner
  | (p, md) :: rest, inner =>
    match pageNameFor targets p with
    | some nm => insertMatched targets rest (aset nm md inner)
    | none => insertMatched targets rest inner

/-- At its own section, `processPages` folds the matched pages into the
existing inner dict. -/
theorem processPages_alookup_self (sect : String) (targets : List String)
    (pm : PageMap) (sp : SitePages) (errs : ErrorLog) (inner : PageMap)
    (h : alookup sect sp = some inner) :
    alookup sect (processPages sect targets pm sp errs).1 =
      some (insertMatched targets pm inner) := by
  induction pm generalizing sp errs inner with
  | nil => simpa [processPages, insertMatched] using h
  | cons pg rest ih =>
    obtain ⟨source, markdown⟩ := pg
    simp only [processPages, insertMatched]
    cases pageNameFor targets source with
    | some nm =>
      simp only [h, Option.getD_some]
      exact ih (aset sect (aset nm markdown inner) sp) errs (aset nm markdown inner)
        (alookup_aset_self sect (aset nm markdown inner) sp)
    | none => exact ih sp (errs ++ [(source, targets)]) inner h

/-- The canonical names of a repository's matched source paths, in order. -/
def matchedNames (targets : List String) (pm : PageMap) : List String :=
  pm.filterMap (fun pg => pageNameFor targets pg.1)

/-- Inserting pages none of whose names is `nm` does not disturb `nm`. -/
theorem alookup_insertMatched_notMem (targets : List String) (nm : String) :
    ∀ pm : PageMap, nm ∉ matchedNames targets pm →
      ∀ inner, alookup nm (insertMatched targets pm inner) = alookup nm inner := by
  intro pm
  induction pm with
  | nil => intro _ inner; rfl
  | cons pg rest ih =>
    intro h inner
    obtain ⟨source, markdown⟩ := pg
    cases he : pageNameFor targets source with
    | some nm' =>
      simp only [matchedNames, List.filterMap_cons, he] at h
      rw [List.mem_cons, not_or] at h
      simp only [insertMatched, he]
      rw [ih h.2, alookup_aset_ne (Ne.symm h.1)]
    | none =>
      simp only [matchedNames, List.filterMap_cons, he] at h
      simp only [insertMatched, he]
      exact ih h inner

/-- A matched page's markdown is found under its name after the fold, given
the repository's matched names are pairwise distinct. -/
theorem alookup_insertMatched_mem (targets : List String) (p md nm : String)
    (hnm : pageNameFor targets p = some nm) :
    ∀ pm : PageMap, (matchedNames targets pm).Nodup → (p, md) ∈ pm →
      ∀ inner, alookup nm (insertMatched targets pm inner) = some md := by
  intro pm
  induction pm with
  | nil => intro _ hp; cases hp
  | cons pg rest ih =>
    intro hnd hp inner
    obtain ⟨source, markdown⟩ := pg
    rcases List.mem_cons.mp hp with heq | hmem
    · injection heq with h1 h2
      subst h1; subst h2
      simp only [matchedNames, List.filterMap_cons, hnm, List.nodup_cons] at hnd
      simp only [insertMatched, hnm]
      rw [alookup_insertMatched_notMem targets nm rest hnd.1, alookup_aset_self]
    · cases he : pageNameFor targets source with
      | some nm0 =>
        simp only [matchedNames, List.filterMap_cons, he, List.nodup_cons] at hnd
        simp only [insertMatched, he]
        exact ih hnd.2 hmem (aset nm0 markdown inner)
      | none =>
        simp only [matchedNames, List.filterMap_cons, he] at hnd
        simp only [insertMatched, he]
        exact ih hnd hmem inner

/-- Sections of the catalog's repositories, in processing order. -/
def sectionsOf (rm : List (String × RepoDesc)) (catalog : Catalog) : List String :=
  catalog.filterMap (fun rp => (alookup rp.1 rm).map RepoDesc.sitesection)

/-- Later repositories whose sections avoid `s` leave section `s` alone. -/
theorem buildAux_alookup_notMem (rm : List (String × RepoDesc)) (s : String) :
    ∀ (catalog : Catalog) (sp : SitePages) (errs : ErrorLog)
      (res : SitePages × ErrorLog),
      s ∉ sectionsOf rm catalog →
      buildAux rm catalog sp errs = some res →
      alookup s res.1 = alookup s sp := by
  intro catalog
  induction catalog with
  | nil =>
    intro sp errs res _ hres
    cases hres
    rfl
  | cons rp rest ih =>
    intro sp errs res hs hres
    obtain ⟨repo, markdowns⟩ := rp
    cases hd : alookup repo rm with
    | none =>
      simp only [buildAux, hd] at hres
      exact Option.noConfusion hres
    | some desc =>
      simp only [buildAux, hd] at hres
      simp only [sectionsOf, List.filterMap_cons, hd, Option.map_some'] at hs
      rw [List.mem_cons, not_or] at hs
      rw [ih _ _ res hs.2 hres, processPages_alookup_ne hs.1,
        alookup_aset_ne (Ne.symm hs.1)]

/-- Completeness of the repository fold from an arbitrary starting state:
under distinct site sections and per-repository distinct canonical names,
every matched page is retrievable from the result. -/
theorem buildAux_complete (rm : List (String × RepoDesc)) :
    ∀ (catalog : Catalog) (sp : SitePages) (errs : ErrorLog),
      (sectionsOf rm catalog).Nodup →
      (∀ rp ∈ catalog, ∀ d, alookup rp.1 rm = some d →
          (matchedNames d.targets rp.2).Nodup) →
      ∀ res, buildAux rm catalog sp errs = some res →
      ∀ r pm, (r, pm) ∈ catalog → ∀ d, alookup r rm = some d →
      ∀ p md nm, (p, md) ∈ pm → pageNameFor d.targets p = some nm →
      pageContent res.1 d.sitesection nm = some md := by
  intro catalog
  induction catalog with
  | nil =>
    intro _ _ _ _ _ _ r pm h
    cases h
  | cons rp rest ih =>
    intro sp errs hsec hnames res hres r pm hmem d hd p md nm hp hnm
    obtain ⟨repo, markdowns⟩ := rp
    cases hd0 : alookup repo rm with
    | none =>
      simp only [buildAux, hd0] at hres
      exact Option.noConfusion hres
    | some d0 =>
      simp only [buildAux, hd0] at hres
      simp only [sectionsOf, List.filterMap_cons, hd0, Option.map_some',
        List.nodup_cons] at hsec
      rcases List.mem_cons.mp hmem with heq | hmem'
      · injection heq with h1 h2
        subst h1; subst h2
        rw [hd] at hd0
        injection hd0 with hdd
        subst hdd
        have hinner : alookup d.sitesection
            (processPages d.sitesection d.targets pm (aset d.sitesection [] sp) errs).1 =
            some (insertMatched d.targets pm []) :=
          processPages_alookup_self d.sitesection d.targets pm _ errs []
            (alookup_aset_self d.sitesection [] sp)
        have hkeep : alookup d.sitesection res.1 =
            some (insertMatched d.targets pm []) := by
          rw [buildAux_alookup_notMem rm d.sitesection rest _ _ res hsec.1 hres, hinner]
        have hnd : (matchedNames d.targets pm).Nodup :=
          hnames (r, pm) (List.mem_cons_self _ _) d hd
        unfold pageContent
        rw [hkeep]
        exact alookup_insertMatched_mem d.targets p md nm hnm pm hnd hp []
      · exact ih _ _ hsec.2
          (fun rp h => hnames rp (List.mem_cons_of_mem _ h)) res hres
          r pm hmem' d hd p md nm hp hnm

/-- C2 (amended): every matched `(sourcePath, markdown)` pair of every
repository is present in the built site under its canonical name, *provided*
distinct repositories map to distinct site sections and the matched canonical
names within each repository are pairwise distinct. -/
theorem build_site_structure_stores_all_matched
    (markdownlist : Catalog) (rm : List (String × RepoDesc))
    (hsec : (sectionsOf rm markdownlist).Nodup)
    (hnames : ∀ rp ∈ markdownlist, ∀ d, alookup rp.1 rm = some d →
        (matchedNames d.targets rp.2).Nodup)
    (res : SitePages × ErrorLog)
    (hres : build_site_structure markdownlist rm = some res)
    (r : String) (pm : PageMap) (hmem : (r, pm) ∈ markdownlist)
    (d : RepoDesc) (hd : alookup r rm = some d)
    (p md nm : String) (hp : (p, md) ∈ pm)
    (hnm : pageNameFor d.targets p = some nm) :
    pageContent res.1 d.sitesection nm = some md :=
  buildAux_complete rm markdownlist [] [] hsec hnames res hres r pm hmem d hd
    p md nm hp hnm

/-- Witness for the amended C2 on a two-repository catalog with distinct
sections. -/
theorem build_site_structure_stores_all_matched_witness :
    pageContent [("s1", [("x.md", "m1")]), ("s2", [("y.md", "m2")])] "s2" "y.md"
      = some "m2" := by
  refine build_site_structure_stores_all_matched
    [("r1", [("a/T/x.pod", "m1")]), ("r2", [("a/T/y.pod", "m2")])]
    [("r1", ⟨"s1", ["T/"]⟩), ("r2", ⟨"s2", ["T/"]⟩)]
    (by decide) ?_ ([("s1", [("x.md", "m1")]), ("s2", [("y.md", "m2")])], [])
    (by decide) "r2" [("a/T/y.pod", "m2")] (by decide) ⟨"s2", ["T/"]⟩ (by decide)
    "a/T/y.pod" "m2" "y.md" (by decide) (by decide)
  intro rp hrp d hd
  rcases List.mem_cons.mp hrp with h | h
  · subst h
    have h' : some (⟨"s1", ["T/"]⟩ : RepoDesc) = some d := hd
    injection h' with h''
    subst h''
    decide
  · rw [List.mem_singleton] at h
    subst h
    have h' : some (⟨"s2", ["T/"]⟩ : RepoDesc) = some d := hd
    injection h' with h''
    subst h''
    decide

/-- Counterexample to C2 as stated: two repositories sharing site section
`s`.  Line 94 (`sitepages[sitesection] = {}`) resets the shared section when
the second repository is processed, so the first repository's page
`a/T/x.pod` matches marker `T/` yet its markdown `m1` appears nowhere in the
result. -/
theorem build_site_structure_clobbers_shared_section :
    build_site_structure
        [("r1", [("a/T/x.pod", "m1")]), ("r2", [("a/T/y.pod", "m2")])]
        [("r1", ⟨"s", ["T/"]⟩), ("r2", ⟨"s", ["T/"]⟩)] =
      some ([("s", [("y.md", "m2")])], []) ∧
    pyIn "T/" "a/T/x.pod" = true := by
  constructor <;> decide

/-- The pages part of `processPages` does not depend on the incoming error log. -/
theorem processPages_fst_errs (sect : String) (targets : List String) :
    ∀ (pm : PageMap) (sp : SitePages) (errs errs' : ErrorLog),
      (processPages sect targets pm sp errs).1 =
        (processPages sect targets pm sp errs').1 := by
  intro pm
  induction pm with
  | nil => intro sp errs errs'; rfl
  | cons pg rest ih =>
    intro sp errs errs'
    obtain ⟨source, markdown⟩ := pg
    simp only [processPages]
    cases pageNameFor targets source with
    | some nm => exact ih _ errs errs'
    | none => exact ih sp _ _

/-- `processPages` only appends to the error log. -/
theorem processPages_errs_mono (sect : String) (targets : List String) :
    ∀ (pm : PageMap) (sp : SitePages) (errs : ErrorLog) (x : String × List String),
      x ∈ errs → x ∈ (processPages sect targets pm sp errs).2 := by
  intro pm
  induction pm with
  | nil => intro sp errs x hx; exact hx
  | cons pg rest ih =>
    intro sp errs x hx
    obtain ⟨source, markdown⟩ := pg
    simp only [processPages]
    cases pageNameFor targets source with
    | some nm => exact ih _ errs x hx
    | none => exact ih sp _ x (List.mem_append_left _ hx)

/-- Dropping an unmatched page changes nothing in the produced pages. -/
theorem processPages_fst_drop_unmatched (sect : String) (targets : List String)
    (p md : String) (hno : pageNameFor targets p = none) (post : PageMap) :
    ∀ (pre : PageMap) (sp : SitePages) (errs errs' : ErrorLog),
      (processPages sect targets (pre ++ (p, md) :: post) sp errs).1 =
        (processPages sect targets (pre ++ post) sp errs').1 := by
  intro pre
  induction pre with
  | nil =>
    intro sp errs errs'
    simp only [List.nil_append, processPages, hno]
    exact processPages_fst_errs sect targets post sp _ _
  | cons pg rest ih =>
    intro sp errs errs'
    obtain ⟨source, markdown⟩ := pg
    simp only [List.cons_append, processPages]
    cases pageNameFor targets source with
    | some nm => exact ih _ _ _
    | none => exact ih _ _ _

/-- The unmatched page's error report reaches the final error log. -/
theorem processPages_unmatched_mem (sect : String) (targets : List String)
    (p md : String) (hno : pageNameFor targets p = none) (post : PageMap) :
    ∀ (pre : PageMap) (sp : SitePages) (errs : ErrorLog),
      (p, targets) ∈ (processPages sect targets (pre ++ (p, md) :: post) sp errs).2 := by
  intro pre
  induction pre with
  | nil =>
    intro sp errs
    simp only [List.nil_append, processPages, hno]
    exact processPages_errs_mono sect targets post sp _ _ (by simp)
  | cons pg rest ih =>
    intro sp errs
    obtain ⟨source, markdown⟩ := pg
    simp only [List.cons_append, processPages]
    cases pageNameFor targets source with
    | some nm => exact ih _ _
    | none => exact ih _ _

/-- The pages part of `buildAux` does not depend on the incoming error log. -/
theorem buildAux_fst_errs (rm : List (String × RepoDesc)) :
    ∀ (catalog : Catalog) (sp : SitePages) (errs errs' : ErrorLog),
      Option.map Prod.fst (buildAux rm catalog sp errs) =
        Option.map Prod.fst (buildAux rm catalog sp errs') := by
  intro catalog
  induction catalog with
  | nil => intro sp errs errs'; rfl
  | cons rp rest ih =>
    intro sp errs errs'
    obtain ⟨repo, markdowns⟩ := rp
    cases hd : alookup repo rm with
    | none => simp [buildAux, hd]
    | some d =>
      simp only [buildAux, hd]
      rw [processPages_fst_errs d.sitesection d.targets markdowns
        (aset d.sitesection [] sp) errs errs']
      exact ih _ _ _

/-- `buildAux` only appends to the error log. -/
theorem buildAux_errs_mono (rm : List (String × RepoDesc)) :
    ∀ (catalog : Catalog) (sp : SitePages) (errs : ErrorLog)
      (x : String × List String) (res : SitePages × ErrorLog),
      x ∈ errs → buildAux rm catalog sp errs = some res → x ∈ res.2 := by
  intro catalog
  induction catalog with
  | nil =>
    intro sp errs x res hx hres
    cases hres
    exact hx
  | cons rp rest ih =>
    intro sp errs x res hx hres
    obtain ⟨repo, markdowns⟩ := rp
    cases hd : alookup repo rm with
    | none =>
      simp only [buildAux, hd] at hres
      exact Option.noConfusion hres
    | some d =>
      simp only [buildAux, hd] at hres
      exact ih _ _ x res
        (processPages_errs_mono d.sitesection d.targets markdowns _ errs x hx) hres

/-- Catalog-level form of the unmatched-page property, for an arbitrary
prefix of repositories and starting state. -/
theorem buildAux_drop_unmatched (rm : List (String × RepoDesc)) (repo : String)
    (d : RepoDesc) (hd : alookup repo rm = some d) (p md : String)
    (hno : pageNameFor d.targets p = none) (pre post : PageMap) (B : Catalog) :
    ∀ (A : Catalog) (sp : SitePages) (errs : ErrorLog),
      Option.map Prod.fst
          (buildAux rm (A ++ (repo, pre ++ (p, md) :: post) :: B) sp errs) =
        Option.map Prod.fst (buildAux rm (A ++ (repo, pre ++ post) :: B) sp errs) ∧
      ∀ res, buildAux rm (A ++ (repo, pre ++ (p, md) :: post) :: B) sp errs = some res →
        (p, d.targets) ∈ res.2 := by
  intro A
  induction A with
  | nil =>
    intro sp errs
    constructor
    · simp only [List.nil_append, buildAux, hd]
      rw [processPages_fst_drop_unmatched d.sitesection d.targets p md hno post pre
        (aset d.sitesection [] sp) errs errs]
      exact buildAux_fst_errs rm B _ _ _
    · intro res hres
      simp only [List.nil_append, buildAux, hd] at hres
      exact buildAux_errs_mono rm B _ _ _ res
        (processPages_unmatched_mem d.sitesection d.targets p md hno post pre _ errs) hres
  | cons rp rest ih =>
    intro sp errs
    obtain ⟨r0, pm0⟩ := rp
    cases hd0 : alookup r0 rm with
    | none =>
      constructor
      · simp [buildAux, hd0]
      · intro res hres
        simp only [List.cons_append, buildAux, hd0] at hres
        exact Option.noConfusion hres
    | some d0 =>
      constructor
      · simp only [List.cons_append, buildAux, hd0]
        exact (ih _ _).1
      · intro res hres
        simp only [List.cons_append, buildAux, hd0] at hres
        exact (ih _ _).2 res hres

/-- C6: a source path matched by no target marker of its repository is
reported in the error log and excluded from the site: the built pages equal
those built from the same catalog without that page (all other pages
unaffected), and the per-page error `(p, targets)` is in the log. -/
theorem build_site_structure_unmatched_excluded
    (rm : List (String × RepoDesc)) (A B : Catalog) (repo : String)
    (pre post : PageMap) (p md : String) (d : RepoDesc)
    (hd : alookup repo rm = some d)
    (hno : ∀ t ∈ d.targets, pyIn t p = false) :
    Option.map Prod.fst
        (build_site_structure (A ++ (repo, pre ++ (p, md) :: post) :: B) rm) =
      Option.map Prod.fst
        (build_site_structure (A ++ (repo, pre ++ post) :: B) rm) ∧
    ∀ res, build_site_structure (A ++ (repo, pre ++ (p, md) :: post) :: B) rm
        = some res → (p, d.targets) ∈ res.2 := by
  have hnone : pageNameFor d.targets p = none := by
    rw [pageNameFor_eq_find]
    have h : List.find? (fun t => pyIn t p) d.targets = none := by
      rw [List.find?_eq_none]
      intro t ht
      simp [hno t ht]
    rw [h]
    rfl
  exact buildAux_drop_unmatched rm repo d hd p md hnone pre post B A [] []

/-- Witness for C6: the page `nomatch.pod` matches no marker, is excluded,
and is reported; the matched sibling page is unaffected. -/
theorem build_site_structure_unmatched_excluded_witness :
    (Option.map Prod.fst
        (build_site_structure [("r", [("a/T/q.pod", "mq"), ("nomatch.pod", "m0")])]
          [("r", ⟨"s", ["T/"]⟩)]) =
      Option.map Prod.fst
        (build_site_structure [("r", [("a/T/q.pod", "mq")])] [("r", ⟨"s", ["T/"]⟩)])) ∧
    ∀ res, build_site_structure [("r", [("a/T/q.pod", "mq"), ("nomatch.pod", "m0")])]
        [("r", ⟨"s", ["T/"]⟩)] = some res → ("nomatch.pod", ["T/"]) ∈ res.2 := by
  exact build_site_structure_unmatched_excluded [("r", ⟨"s", ["T/"]⟩)] [] []
    "r" [("a/T/q.pod", "mq")] [] "nomatch.pod" "m0" ⟨"s", ["T/"]⟩ (by decide) (by decide)

/-- The characters Python `re` treats as metacharacters (outside character
classes): `. \ * + ? ( ) [ ] { } | ^ $`. -/
def isRegexMeta (c : Char) : Bool :=
  c = '.' || c = '\\' || c = '*' || c = '+' || c = '?' || c = '(' || c = ')' ||
  c = '[' || c = ']' || c = '\x7b' || c = '\x7d' || c = '|' || c = '^' || c = '$'

/-- A pattern body free of every regex metacharacter.  Such a body is matched
as literal text both by Python `re` and by the token model above, which is
why the literal-occurrence theorems below require it: a body containing any
metacharacter (a dot from a basename, a quantifier, an anchor, ...) is
interpolated into the regex unescaped and is not matched literally by
Python. -/
def plainPat (l : List Char) : Bool := l.all (fun c => !(isRegexMeta c))

/-- A metacharacter-free body compiles to literal tokens only. -/
theorem parsePat_plain : ∀ l : List Char, plainPat l = true → parsePat l = l.map RTok.lit := by
  intro l
  induction l with
  | nil => intro _; rfl
  | cons c rest ih =>
    intro h
    simp only [plainPat, List.all_cons, Bool.and_eq_true] at h
    obtain ⟨hc, hrest⟩ := h
    have h1 : ¬ c = '.' := by
      intro he
      subst he
      simp [isRegexMeta] at hc
    have h2 : ¬ c = '\\' := by
      intro he
      subst he
      simp [isRegexMeta] at hc
    have hr : parsePat rest = rest.map RTok.lit := ih hrest
    rw [parsePat.eq_def]
    simp only [if_neg h1, if_neg h2, hr, List.map]

/-- Literal tokens consume exactly the pattern text. -/
theorem bodyMatch_lit_append (l r : List Char) :
    bodyMatch (l.map RTok.lit) (l ++ r) = some r := by
  induction l with
  | nil => rfl
  | cons c rest ih => simp [bodyMatch, tokMatch, ih]

/-- Conversely, a successful literal match means the input starts with the
pattern text. -/
theorem bodyMatch_lit_eq : ∀ (l s r : List Char),
    bodyMatch (l.map RTok.lit) s = some r → s = l ++ r := by
  intro l
  induction l with
  | nil =>
    intro s r h
    injection h with h
  | cons c rest ih =>
    intro s r h
    cases s with
    | nil => exact Option.noConfusion h
    | cons d s' =>
      simp only [List.map, bodyMatch] at h
      by_cases hd : tokMatch (RTok.lit c) d = true
      · have hcd : c = d := by simpa [tokMatch] using hd
        subst hcd
        rw [if_pos hd] at h
        rw [ih s' r h]
        simp
      · rw [if_neg hd] at h
        exact Option.noConfusion h

theorem afterBody_lit_append (pat : List Char) (t : Char) (rest : List Char)
    (htr : isTrailer t = true) :
    afterBody (pat.map RTok.lit) (pat ++ t :: rest) = some (t, rest) := by
  unfold afterBody
  rw [bodyMatch_lit_append]
  simp [htr]

theorem afterBody_lit (pat s : List Char) (t : Char) (rest : List Char)
    (h : afterBody (pat.map RTok.lit) s = some (t, rest)) :
    s = pat ++ t :: rest ∧ isTrailer t = true := by
  unfold afterBody at h
  cases hb : bodyMatch (pat.map RTok.lit) s with
  | none => rw [hb] at h; exact Option.noConfusion h
  | some l =>
    rw [hb] at h
    cases l with
    | nil => exact Option.noConfusion h
    | cons t' rest' =>
      dsimp only at h
      by_cases ht : isTrailer t' = true
      · rw [if_pos ht] at h
        injection h with h
        injection h with h1 h2
        subst h1; subst h2
        exact ⟨bodyMatch_lit_eq pat s _ hb, ht⟩
      · rw [if_neg ht] at h
        exact Option.noConfusion h

theorem tryNl_lit (pat s b : List Char) (t : Char) (rest : List Char)
    (h : tryNl (pat.map RTok.lit) s = some (b, t, rest)) :
    s = b ++ pat ++ t :: rest ∧ isTrailer t = true ∧ b = ['\n'] := by
  unfold tryNl at h
  cases s with
  | nil => exact Option.noConfusion h
  | cons c cs =>
    dsimp only at h
    by_cases hc : c = '\n'
    · subst hc
      rw [if_pos rfl] at h
      cases ha : afterBody (pat.map RTok.lit) cs with
      | none =>
        rw [ha] at h
        exact Option.noConfusion h
      | some pr =>
        obtain ⟨t', rest'⟩ := pr
        rw [ha] at h
        dsimp only at h
        injection h with h
        injection h with hb h
        injection h with ht hr
        subst hb; subst ht; subst hr
        obtain ⟨hs, htr⟩ := afterBody_lit pat cs _ _ ha
        exact ⟨by rw [hs]; rfl, htr, rfl⟩
    · rw [if_neg hc] at h
      exact Option.noConfusion h

theorem tryCaret_lit (pat s b : List Char) (atStart : Bool) (t : Char)
    (rest : List Char)
    (h : tryCaret (pat.map RTok.lit) atStart s = some (b, t, rest)) :
    s = b ++ pat ++ t :: rest ∧ isTrailer t = true ∧
      (b = [] ∧ atStart = true ∨ b = ['\n']) := by
  unfold tryCaret at h
  cases atStart with
  | false =>
    rw [if_neg Bool.false_ne_true] at h
    obtain ⟨hs, htr, hb⟩ := tryNl_lit pat s b t rest h
    exact ⟨hs, htr, Or.inr hb⟩
  | true =>
    rw [if_pos rfl] at h
    cases ha : afterBody (pat.map RTok.lit) s with
    | none =>
      rw [ha] at h
      obtain ⟨hs, htr, hb⟩ := tryNl_lit pat s b t rest h
      exact ⟨hs, htr, Or.inr hb⟩
    | some pr =>
      obtain ⟨t', rest'⟩ := pr
      rw [ha] at h
      dsimp only at h
      injection h with h
      injection h with hb h
      injection h with ht hr
      subst hb; subst ht; subst hr
      obtain ⟨hs, htr⟩ := afterBody_lit pat s _ _ ha
      exact ⟨by rw [hs]; rfl, htr, Or.inl ⟨rfl, rfl⟩⟩

/-- A successful match of the full pattern `( |^|\n)pat([,. $])` for a
literal body decomposes the input with a boundary. -/
theorem tryAt_lit (pat : List Char) (atStart : Bool) (s b : List Char) (t : Char)
    (rest : List Char)
    (h : tryAt (pat.map RTok.lit) atStart s = some (b, t, rest)) :
    s = b ++ pat ++ t :: rest ∧ isTrailer t = true ∧
      (b = [] ∧ atStart = true ∨ b = [' '] ∨ b = ['\n']) := by
  unfold tryAt at h
  cases s with
  | nil =>
    obtain ⟨hs, htr, hb⟩ := tryCaret_lit pat [] b atStart t rest h
    rcases hb with ⟨h1, h2⟩ | h1
    · exact ⟨hs, htr, Or.inl ⟨h1, h2⟩⟩
    · exact ⟨hs, htr, Or.inr (Or.inr h1)⟩
  | cons c cs =>
    dsimp only at h
    by_cases hc : c = ' '
    · subst hc
      rw [if_pos rfl] at h
      cases ha : afterBody (pat.map RTok.lit) cs with
      | none =>
        rw [ha] at h
        obtain ⟨hs, htr, hb⟩ := tryCaret_lit pat _ b atStart t rest h
        rcases hb with ⟨h1, h2⟩ | h1
        · exact ⟨hs, htr, Or.inl ⟨h1, h2⟩⟩
        · exact ⟨hs, htr, Or.inr (Or.inr h1)⟩
      | some pr =>
        obtain ⟨t', rest'⟩ := pr
        rw [ha] at h
        dsimp only at h
        injection h with h
        injection h with hb h
        injection h with ht hr
        subst hb; subst ht; subst hr
        obtain ⟨hs, htr⟩ := afterBody_lit pat cs _ _ ha
        exact ⟨by rw [hs]; rfl, htr, Or.inr (Or.inl rfl)⟩
    · rw [if_neg hc] at h
      obtain ⟨hs, htr, hb⟩ := tryCaret_lit pat _ b atStart t rest h
      rcases hb with ⟨h1, h2⟩ | h1
      · exact ⟨hs, htr, Or.inl ⟨h1, h2⟩⟩
      · exact ⟨hs, htr, Or.inr (Or.inr h1)⟩

/-- If the scan changes anything, the literal pattern text occurs somewhere
in the input with the regex's boundary context. -/
theorem subScan_ne_occurrence (pat repl : List Char) :
    ∀ (fuel : Nat) (atStart : Bool) (s : List Char),
      subScan (pat.map RTok.lit) repl fuel atStart s ≠ s →
      ∃ u v, ∃ t : Char, s = u ++ pat ++ t :: v ∧ isTrailer t = true ∧
        (u = [] ∧ atStart = true ∨ ∃ u' b, u = u' ++ [b] ∧ (b = ' ' ∨ b = '\n')) := by
  intro fuel
  induction fuel with
  | zero => intro atStart s h; exact absurd rfl h
  | succ fuel ih =>
    intro atStart s h
    cases ht : tryAt (pat.map RTok.lit) atStart s with
    | some pr =>
      obtain ⟨b, t, rest⟩ := pr
      obtain ⟨hs, htr, hb⟩ := tryAt_lit pat atStart s b t rest ht
      refine ⟨b, rest, t, hs, htr, ?_⟩
      rcases hb with ⟨h1, h2⟩ | h1 | h1
      · exact Or.inl ⟨h1, h2⟩
      · exact Or.inr ⟨[], ' ', by simp [h1], Or.inl rfl⟩
      · exact Or.inr ⟨[], '\n', by simp [h1], Or.inr rfl⟩
    | none =>
      cases s with
      | nil => exact absurd (by simp [subScan, ht]) h
      | cons c cs =>
        have hne : subScan (pat.map RTok.lit) repl fuel false cs ≠ cs := by
          intro hc
          exact h (by simp [subScan, ht, hc])
        obtain ⟨u, v, t, hs, htr, hb⟩ := ih false cs hne
        refine ⟨c :: u, v, t, by rw [hs]; rfl, htr, ?_⟩
        rcases hb with ⟨_, h2⟩ | ⟨u', b, hu, hbb⟩
        · exact Bool.noConfusion h2
        · exact Or.inr ⟨c :: u', b, by rw [hu]; rfl, hbb⟩

theorem afterBody_none_of_head_ne (c0 : Char) (pat' : List Char) (d : Char)
    (s : List Char) (hne : c0 ≠ d) :
    afterBody ((c0 :: pat').map RTok.lit) (d :: s) = none := by
  simp [afterBody, bodyMatch, tokMatch, hne]

/-- One replacement step at a space boundary keeps the space and the trailer. -/
theorem subScan_space_front (pat repl : List Char) (t : Char) (rest : List Char)
    (htr : isTrailer t = true) (fuel : Nat) (atStart : Bool) :
    subScan (pat.map RTok.lit) repl (fuel + 1) atStart (' ' :: pat ++ t :: rest) =
      ' ' :: repl ++ t :: subScan (pat.map RTok.lit) repl fuel false rest := by
  have h1 : tryAt (pat.map RTok.lit) atStart (' ' :: (pat ++ t :: rest)) =
      some ([' '], t, rest) := by
    unfold tryAt
    dsimp only
    rw [if_pos rfl, afterBody_lit_append pat t rest htr]
  dsimp only [List.cons_append]
  rw [subScan.eq_def]
  dsimp only
  rw [h1]
  simp

/-- One replacement step at a newline boundary keeps the newline and trailer. -/
theorem subScan_newline_front (pat repl : List Char) (c0 : Char) (pat' : List Char)
    (hpat : pat = c0 :: pat') (hc0 : c0 ≠ '\n') (t : Char) (rest : List Char)
    (htr : isTrailer t = true) (fuel : Nat) :
    subScan (pat.map RTok.lit) repl (fuel + 1) true ('\n' :: pat ++ t :: rest) =
      '\n' :: repl ++ t :: subScan (pat.map RTok.lit) repl fuel false rest := by
  have hab : afterBody (pat.map RTok.lit) ('\n' :: (pat ++ t :: rest)) = none := by
    conv_lhs => rw [hpat]
    exact afterBody_none_of_head_ne c0 pat' '\n' _ hc0
  have h1 : tryAt (pat.map RTok.lit) true ('\n' :: (pat ++ t :: rest)) =
      some (['\n'], t, rest) := by
    unfold tryAt
    dsimp only
    rw [if_neg (by decide : ¬ ('\n' : Char) = ' ')]
    unfold tryCaret
    rw [if_pos rfl, hab]
    dsimp only
    unfold tryNl
    dsimp only
    rw [if_pos rfl, afterBody_lit_append pat t rest htr]
  dsimp only [List.cons_append]
  rw [subScan.eq_def]
  dsimp only
  rw [h1]
  simp

/-- One replacement step at the start of the content keeps the trailer. -/
theorem subScan_start_front (pat repl : List Char) (c0 : Char) (pat' : List Char)
    (hpat : pat = c0 :: pat') (hc0 : c0 ≠ ' ') (t : Char) (rest : List Char)
    (htr : isTrailer t = true) (fuel : Nat) :
    subScan (pat.map RTok.lit) repl (fuel + 1) true (pat ++ t :: rest) =
      repl ++ t :: subScan (pat.map RTok.lit) repl fuel false rest := by
  subst hpat
  have h1 : tryAt ((c0 :: pat').map RTok.lit) true (c0 :: (pat' ++ t :: rest)) =
      some ([], t, rest) := by
    unfold tryAt
    dsimp only
    rw [if_neg hc0]
    unfold tryCaret
    rw [if_pos rfl]
    have hab : afterBody ((c0 :: pat').map RTok.lit) (c0 :: (pat' ++ t :: rest)) =
        some (t, rest) := by
      have := afterBody_lit_append (c0 :: pat') t rest htr
      simpa using this
    rw [hab]
  dsimp only [List.cons_append]
  rw [subScan.eq_def]
  dsimp only
  rw [h1]
  simp

/-- C5 (amended): for a candidate pattern free of every regex metacharacter
(`plainPat` — no `. \ * + ? ( ) [ ] { } | ^ $`, so the body is literal text
for Python `re` exactly as for the token model), `replace_regex_link`
rewrites a page's content only if the literal pattern text occurs in it
preceded by the content's start, a space or a newline and followed by one of
`,`, `.`, ` `, `$` (first conjunct: with no such occurrence every page is
returned unchanged); and the replacement keeps the boundary and trailer
characters around the inserted `[basename](link)` (second conjunct, one case
per boundary form).  The original claim's "no regex metacharacter
interpretation of the basename" does not hold for patterns containing a
metacharacter such as `.`, which the code interpolates into the regex
unescaped — see the counterexample theorem. -/
theorem replace_regex_link_literal_only_boundary :
    (∀ (pages : SitePages) (pat basename link subdir page content : String),
        plainPat pat.data = true →
        pageContent pages subdir page = some content →
        (¬ ∃ u v, ∃ t : Char, content.data = u ++ pat.data ++ t :: v ∧
            isTrailer t = true ∧
            (u = [] ∨ ∃ u' b, u = u' ++ [b] ∧ (b = ' ' ∨ b = '\n'))) →
        pageContent (replace_regex_link pages pat basename link) subdir page =
          some content) ∧
    (∀ (pat basename link : String) (t : Char) (rest : List Char),
        plainPat pat.data = true → isTrailer t = true →
        pat.data ≠ [] → pat.data.head? ≠ some ' ' → pat.data.head? ≠ some '\n' →
        (∃ z, regexSub pat basename link ⟨' ' :: pat.data ++ t :: rest⟩ =
            ⟨' ' :: ("[" ++ basename ++ "](" ++ link ++ ")").data ++ t :: z⟩) ∧
        (∃ z, regexSub pat basename link ⟨'\n' :: pat.data ++ t :: rest⟩ =
            ⟨'\n' :: ("[" ++ basename ++ "](" ++ link ++ ")").data ++ t :: z⟩) ∧
        (∃ z, regexSub pat basename link ⟨pat.data ++ t :: rest⟩ =
            ⟨("[" ++ basename ++ "](" ++ link ++ ")").data ++ t :: z⟩)) := by
  constructor
  · intro pages pat basename link subdir page content hplain hc hnocc
    have htoks : parsePat pat.data = pat.data.map RTok.lit := parsePat_plain pat.data hplain
    have hsub : regexSub pat basename link content = content := by
      unfold regexSub
      rw [htoks]
      by_cases hchange : subScan (pat.data.map RTok.lit)
          ("[" ++ basename ++ "](" ++ link ++ ")").data
          (content.data.length + 1) true content.data = content.data
      · rw [hchange]
      · exfalso
        obtain ⟨u, v, t, hdec, htr, hb⟩ :=
          subScan_ne_occurrence pat.data _ _ true content.data hchange
        apply hnocc
        refine ⟨u, v, t, hdec, htr, ?_⟩
        rcases hb with ⟨h1, _⟩ | ⟨u', b, hu, hbb⟩
        · exact Or.inl h1
        · exact Or.inr ⟨u', b, hu, hbb⟩
    rw [pageContent_replace_regex_link, hc]
    simp [hsub]
  · intro pat basename link t rest hplain htr hne hh1 hh2
    have htoks : parsePat pat.data = pat.data.map RTok.lit := parsePat_plain pat.data hplain
    cases hp : pat.data with
    | nil => exact absurd hp hne
    | cons c0 pat' =>
      have hc0sp : c0 ≠ ' ' := by
        intro hc
        exact hh1 (by rw [hp, hc]; rfl)
      have hc0nl : c0 ≠ '\n' := by
        intro hc
        exact hh2 (by rw [hp, hc]; rfl)
      refine ⟨⟨_, by
          unfold regexSub
          dsimp only
          rw [htoks, hp]
          rw [subScan_space_front (c0 :: pat') _ t rest htr _ true]⟩, ⟨_, by
          unfold regexSub
          dsimp only
          rw [htoks, hp]
          rw [subScan_newline_front (c0 :: pat') _ c0 pat' rfl hc0nl t rest htr _]⟩, ⟨_, by
          unfold regexSub
          dsimp only
          rw [htoks, hp]
          rw [subScan_start_front (c0 :: pat') _ c0 pat' rfl hc0sp t rest htr _]⟩⟩

/-- Counterexample to C5 as stated: the candidate pattern `` `a.b` `` for
basename `a.b` contains a dot, which the code drops into the regex
unescaped; it matches the text `` `axb` `` although the literal pattern text
occurs nowhere in the content, and the page is rewritten. -/
theorem replace_regex_link_dot_wildcard :
    replace_regex_link [("s", [("p.md", " `axb`. a.b")])] "`a.b`" "a.b" "L" =
      [("s", [("p.md", " [a.b](L). a.b")])] ∧
    pyIn "`a.b`" " `axb`. a.b" = false := by
  constructor <;> decide

/-- Witness for the amended C5, instantiating both conjuncts. -/
theorem replace_regex_link_literal_only_boundary_witness :
    pageContent (replace_regex_link [("s", [("q.md", "")])] "`xyz`" "xyz" "L")
        "s" "q.md" = some "" ∧
    (∃ z, regexSub "`xyz`" "xyz" "L" ⟨' ' :: "`xyz`".data ++ '.' :: []⟩ =
        ⟨' ' :: ("[" ++ "xyz" ++ "](" ++ "L" ++ ")").data ++ '.' :: z⟩) := by
  constructor
  · refine replace_regex_link_literal_only_boundary.1 [("s", [("q.md", "")])]
      "`xyz`" "xyz" "L" "s" "q.md" "" (by decide) (by decide) ?_
    rintro ⟨u, v, t, hdec, -, -⟩
    have hlen := congrArg List.length hdec
    simp at hlen
    omega
  · exact (replace_regex_link_literal_only_boundary.2 "`xyz`" "xyz" "L" '.' []
      (by decide) (by decide) (by decide) (by decide) (by decide)).1

/-! ### `write_site` (lines 151-168)

Filesystem side effects become a returned list of (full path, content)
writes; the table of contents is returned alongside.  Python's `set()` of a
dict's keys is modelled as first-occurrence deduplication, and `sorted(...,
key=lambda s: s.lower())` as a stable insertion sort by the ASCII-lowercased
byte string (CPython's `sorted` is stable, `str.lower` is ASCII on these
byte strings). -/

/-- ASCII lowercase of one character. -/
def asciiLowerChar (c : Char) : Char :=
  if 65 ≤ c.toNat ∧ c.toNat ≤ 90 then Char.ofNat (c.toNat + 32) else c

/-- Python 2 `str.lower()` (ASCII). -/
def asciiLower (s : String) : String := ⟨s.data.map asciiLowerChar⟩

/-- Byte-lexicographic `≤` on character lists (Python `str` comparison). -/
def lexLe : List Char → List Char → Bool
  | [], _ => true
  | _ :: _, [] => false
  | a :: as, b :: bs =>
    if a.toNat < b.toNat then true
    else if b.toNat < a.toNat then false
    else lexLe as bs

/-- The comparison used at line 166: `key=lambda s: s.lower()`. -/
def lowerLe (a b : String) : Bool := lexLe (asciiLower a).data (asciiLower b).data

/-- Stable insertion into an already sorted list. -/
def insLower (x : String) : List String → List String
  | [] => [x]
  | y :: ys => if lowerLe x y then x :: y :: ys else y :: insLower x ys

/-- `sorted(l, key=lambda s: s.lower())` as a stable insertion sort. -/
def sortLower (l : List String) : List String := l.foldr insLower []

/-- `set()` insertion: keep the first occurrence of each element. -/
def dedupAcc : List String → List String → List String
  | [], _ => []
  | x :: xs, seen => if x ∈ seen then dedupAcc xs seen else x :: dedupAcc xs (x :: seen)

/-- `os.path.join(a, b)` (posixpath, two components). -/
def pyJoin (a b : String) : String :=
  if b.data.head? = some '/' then b
  else if a.data = [] then b
  else if a.data.getLast? = some '/' then a ++ b
  else a ++ "/" ++ b

/-- `write_site(sitepages, location, docsdir)` (lines 151-168): the file
writes `location/docsdir/subdir/pagename ↦ content` in execution order, and
the toc mapping each section to its case-insensitively sorted, deduplicated
page names. -/
def write_site (sitepages : SitePages) (location docsdir : String) :
    List (String × String) × List (String × List String) :=
  match sitepages with
  | [] => ([], [])
  | (subdir, pages) :: rest =>
    let fullsubdir := pyJoin (pyJoin location docsdir) subdir
    let writes := pages.map (fun pg => (pyJoin fullsubdir pg.1, pg.2))
    let tocEntry := sortLower (dedupAcc (pages.map Prod.fst) [])
    let r := write_site rest location docsdir
    (writes ++ r.1, (subdir, tocEntry) :: r.2)

theorem lexLe_total : ∀ a b, lexLe a b = true ∨ lexLe b a = true := by
  intro a
  induction a with
  | nil => intro b; exact Or.inl rfl
  | cons x xs ih =>
    intro b
    cases b with
    | nil => exact Or.inr rfl
    | cons y ys =>
      by_cases h1 : x.toNat < y.toNat
      · exact Or.inl (by simp [lexLe, h1])
      · by_cases h2 : y.toNat < x.toNat
        · exact Or.inr (by simp [lexLe, h1, h2])
        · rcases ih ys with h | h
          · exact Or.inl (by simp [lexLe, h1, h2, h])
          · exact Or.inr (by simp [lexLe, h1, h2, h])

theorem lexLe_trans : ∀ a b c, lexLe a b = true → lexLe b c = true →
    lexLe a c = true := by
  intro a
  induction a with
  | nil => intro b c _ _; rfl
  | cons x xs ih =>
    intro b c hab hbc
    cases b with
    | nil => exact absurd hab (by simp [lexLe])
    | cons y ys =>
      cases c with
      | nil => exact absurd hbc (by simp [lexLe])
      | cons z zs =>
        simp only [lexLe] at hab hbc ⊢
        by_cases hxy : x.toNat < y.toNat
        · by_cases hyz : y.toNat < z.toNat
          · have : x.toNat < z.toNat := by omega
            simp [this]
          · by_cases hzy : z.toNat < y.toNat
            · simp [hyz, hzy] at hbc
            · have : x.toNat < z.toNat := by omega
              simp [this]
        · by_cases hyx : y.toNat < x.toNat
          · simp [hxy, hyx] at hab
          · by_cases hyz : y.toNat < z.toNat
            · have : x.toNat < z.toNat := by omega
              simp [this]
            · by_cases hzy : z.toNat < y.toNat
              · simp [hyz, hzy] at hbc
              · have h1 : ¬ x.toNat < z.toNat := by omega
                have h2 : ¬ z.toNat < x.toNat := by omega
                simp only [hxy, hyx, if_neg, if_false] at hab
                simp only [hyz, hzy, if_neg, if_false] at hbc
                simp [h1, h2, ih ys zs hab hbc]

theorem lexLe_antisymm : ∀ a b, lexLe a b = true → lexLe b a = true → a = b := by
  intro a
  induction a with
  | nil =>
    intro b _ hba
    cases b with
    | nil => rfl
    | cons y ys => exact absurd hba (by simp [lexLe])
  | cons x xs ih =>
    intro b hab hba
    cases b with
    | nil => exact absurd hab (by simp [lexLe])
    | cons y ys =>
      simp only [lexLe] at hab hba
      by_cases hxy : x.toNat < y.toNat
      · have : ¬ y.toNat < x.toNat := by omega
        simp [hxy, this] at hba
      · by_cases hyx : y.toNat < x.toNat
        · simp [hxy, hyx] at hab
        · have hx : x = y := Char.eq_of_val_eq (by
            apply UInt32.eq_of_val_eq
            apply Fin.eq_of_val_eq
            have : x.toNat = y.toNat := by omega
            exact this)
          subst hx
          simp only [hxy, if_neg, if_false] at hab hba
          rw [ih ys hab hba]

theorem lowerLe_total (a b : String) : lowerLe a b = true ∨ lowerLe b a = true :=
  lexLe_total _ _

theorem lowerLe_trans (a b c : String) (h1 : lowerLe a b = true)
    (h2 : lowerLe b c = true) : lowerLe a c = true :=
  lexLe_trans _ _ _ h1 h2

theorem lowerLe_antisymm (a b : String) (h1 : lowerLe a b = true)
    (h2 : lowerLe b a = true) : asciiLower a = asciiLower b := by
  have h : (asciiLower a).data = (asciiLower b).data := lexLe_antisymm _ _ h1 h2
  exact congrArg String.mk h

theorem insLower_perm (x : String) : ∀ l : List String, (insLower x l).Perm (x :: l) := by
  intro l
  induction l with
  | nil => exact List.Perm.refl _
  | cons y ys ih =>
    simp only [insLower]
    by_cases h : lowerLe x y = true
    · simp [h]
    · simp only [h, if_false]
      exact ((ih.cons y).trans (List.Perm.swap x y ys))

theorem insLower_pairwise (x : String) :
    ∀ l : List String, l.Pairwise (fun a b => lowerLe a b = true) →
      (insLower x l).Pairwise (fun a b => lowerLe a b = true) := by
  intro l
  induction l with
  | nil => intro _; simp [insLower]
  | cons y ys ih =>
    intro h
    rw [List.pairwise_cons] at h
    simp only [insLower]
    by_cases hxy : lowerLe x y = true
    · rw [if_pos hxy, List.pairwise_cons]
      constructor
      · intro z hz
        rcases List.mem_cons.mp hz with hz | hz
        · rw [hz]; exact hxy
        · exact lowerLe_trans x y z hxy (h.1 z hz)
      · rw [List.pairwise_cons]
        exact h
    · rw [if_neg hxy, List.pairwise_cons]
      constructor
      · intro z hz
        have hz' := (insLower_perm x ys).mem_iff.mp hz
        rcases List.mem_cons.mp hz' with hz' | hz'
        · rw [hz']
          rcases lowerLe_total x y with h' | h'
          · exact absurd h' hxy
          · exact h'
        · exact h.1 z hz'
      · exact ih h.2

theorem sortLower_perm : ∀ l : List String, (sortLower l).Perm l := by
  intro l
  induction l with
  | nil => exact List.Perm.refl _
  | cons x xs ih =>
    have h1 : sortLower (x :: xs) = insLower x (sortLower xs) := rfl
    rw [h1]
    exact (insLower_perm x (sortLower xs)).trans (ih.cons x)

theorem sortLower_pairwise : ∀ l : List String,
    (sortLower l).Pairwise (fun a b => lowerLe a b = true) := by
  intro l
  induction l with
  | nil => simp [sortLower]
  | cons x xs ih => exact insLower_pairwise x (sortLower xs) ih

theorem dedupAcc_mem : ∀ (l seen : List String) (x : String),
    x ∈ dedupAcc l seen ↔ x ∈ l ∧ x ∉ seen := by
  intro l
  induction l with
  | nil => intro seen x; simp [dedupAcc]
  | cons a as ih =>
    intro seen x
    simp only [dedupAcc]
    by_cases ha : a ∈ seen
    · rw [if_pos ha, ih]
      constructor
      · rintro ⟨h1, h2⟩
        exact ⟨List.mem_cons_of_mem _ h1, h2⟩
      · rintro ⟨h1, h2⟩
        rcases List.mem_cons.mp h1 with h1 | h1
        · subst h1; exact absurd ha h2
        · exact ⟨h1, h2⟩
    · rw [if_neg ha]
      by_cases hx : x = a
      · subst hx
        simp [ih, ha]
      · simp only [List.mem_cons, hx, false_or, ih]

theorem dedupAcc_nodup : ∀ (l seen : List String), (dedupAcc l seen).Nodup := by
  intro l
  induction l with
  | nil => intro seen; simp [dedupAcc]
  | cons a as ih =>
    intro seen
    simp only [dedupAcc]
    by_cases ha : a ∈ seen
    · rw [if_pos ha]; exact ih seen
    · rw [if_neg ha, List.nodup_cons]
      refine ⟨fun hc => ?_, ih (a :: seen)⟩
      exact ((dedupAcc_mem as (a :: seen) a).mp hc).2 (List.mem_cons_self a seen)

/-- Two sorted lists that are permutations of each other coincide, provided
lowercasing is injective on their elements (ties in the sort key force
equality of the elements themselves). -/
theorem sorted_perm_eq_of_lowerInj :
    ∀ (l1 l2 : List String), l1.Perm l2 →
      l1.Pairwise (fun a b => lowerLe a b = true) →
      l2.Pairwise (fun a b => lowerLe a b = true) →
      (∀ x ∈ l1, ∀ y ∈ l1, asciiLower x = asciiLower y → x = y) →
      l1 = l2 := by
  intro l1
  induction l1 with
  | nil =>
    intro l2 hp _ _ _
    exact (hp.symm.eq_nil).symm
  | cons x xs ih =>
    intro l2 hp hs1 hs2 hinj
    cases l2 with
    | nil => exact List.noConfusion hp.eq_nil
    | cons y ys =>
      have hxy : x = y := by
        have hy1 : y ∈ x :: xs := hp.mem_iff.mpr (List.mem_cons_self y ys)
        have hx2 : x ∈ y :: ys := hp.mem_iff.mp (List.mem_cons_self x xs)
        rcases List.mem_cons.mp hy1 with h | hy
        · exact h.symm
        · rcases List.mem_cons.mp hx2 with h | hx
          · exact h
          · have h1 : lowerLe x y = true := (List.pairwise_cons.mp hs1).1 y hy
            have h2 : lowerLe y x = true := (List.pairwise_cons.mp hs2).1 x hx
            exact hinj x (List.mem_cons_self x xs) y (List.mem_cons_of_mem _ hy)
              (lowerLe_antisymm x y h1 h2)
      subst hxy
      have hps : xs.Perm ys := hp.cons_inv
      rw [ih ys hps (List.pairwise_cons.mp hs1).2 (List.pairwise_cons.mp hs2).2
        (fun a ha b hb hab =>
          hinj a (List.mem_cons_of_mem _ ha) b (List.mem_cons_of_mem _ hb) hab)]

/-- Permuting the input permutes the deduplicated list. -/
theorem dedupAcc_perm_of_perm (l1 l2 : List String) (hp : l1.Perm l2) :
    (dedupAcc l1 []).Perm (dedupAcc l2 []) := by
  apply List.perm_of_nodup_nodup_toFinset_eq (dedupAcc_nodup _ _) (dedupAcc_nodup _ _)
  ext a
  simp [List.mem_toFinset, dedupAcc_mem, hp.mem_iff]

/-- The toc returned by `write_site`, as a lookup equation. -/
theorem alookup_write_site_toc (sp : SitePages) (loc docsdir sect : String) :
    alookup sect (write_site sp loc docsdir).2 =
      (alookup sect sp).map (fun pgs => sortLower (dedupAcc (pgs.map Prod.fst) [])) := by
  induction sp with
  | nil => rfl
  | cons sec rest ih =>
    by_cases h : sec.1 = sect
    · simp [write_site, alookup, h]
    · simp [write_site, alookup, h, ih]

/-- C7 (amended): the toc built by `write_site` maps each section of its
input to a duplicate-free list containing exactly that section's page names,
sorted case-insensitively (first conjunct); and the toc is independent of
insertion order and of the output location *provided* no two page names of a
section coincide after lowercasing (second conjunct).  For a pair of names
equal up to case, the stable sort keeps insertion order, so order
independence fails as stated — see the counterexample theorem. -/
theorem write_site_toc_sorted_dedup_det :
    (∀ (sp : SitePages) (loc docsdir sect : String) (pgs : PageMap),
        alookup sect sp = some pgs →
        ∃ l, alookup sect (write_site sp loc docsdir).2 = some l ∧
          l.Nodup ∧ (∀ x, x ∈ l ↔ x ∈ pgs.map Prod.fst) ∧
          l.Pairwise (fun a b => lowerLe a b = true)) ∧
    (∀ (sp1 sp2 : SitePages) (loc1 loc2 docsdir1 docsdir2 : String),
        (∀ sect, alookup sect sp1 = none ↔ alookup sect sp2 = none) →
        (∀ sect pgs1 pgs2, alookup sect sp1 = some pgs1 →
          alookup sect sp2 = some pgs2 →
          (pgs1.map Prod.fst).Perm (pgs2.map Prod.fst) ∧
          (∀ x ∈ pgs1.map Prod.fst, ∀ y ∈ pgs1.map Prod.fst,
            asciiLower x = asciiLower y → x = y)) →
        ∀ sect, alookup sect (write_site sp1 loc1 docsdir1).2 =
          alookup sect (write_site sp2 loc2 docsdir2).2) := by
  constructor
  · intro sp loc docsdir sect pgs hsect
    rw [alookup_write_site_toc, hsect]
    refine ⟨_, rfl, ?_, ?_, ?_⟩
    · exact ((sortLower_perm _).nodup_iff).mpr (dedupAcc_nodup _ _)
    · intro x
      rw [(sortLower_perm _).mem_iff, dedupAcc_mem]
      simp
    · exact sortLower_pairwise _
  · intro sp1 sp2 loc1 loc2 d1 d2 hnone hsome sect
    rw [alookup_write_site_toc, alookup_write_site_toc]
    cases h1 : alookup sect sp1 with
    | none =>
      rw [(hnone sect).mp h1]
    | some pgs1 =>
      cases h2 : alookup sect sp2 with
      | none =>
        rw [(hnone sect).mpr h2] at h1
        exact Option.noConfusion h1
      | some pgs2 =>
        obtain ⟨hperm, hinj⟩ := hsome sect pgs1 pgs2 h1 h2
        simp only [Option.map_some']
        congr 1
        apply sorted_perm_eq_of_lowerInj
        · exact (sortLower_perm _).trans
            ((dedupAcc_perm_of_perm _ _ hperm).trans (sortLower_perm _).symm)
        · exact sortLower_pairwise _
        · exact sortLower_pairwise _
        · intro x hx y hy hxy
          have hx' : x ∈ pgs1.map Prod.fst :=
            ((dedupAcc_mem _ _ _).mp ((sortLower_perm _).mem_iff.mp hx)).1
          have hy' : y ∈ pgs1.map Prod.fst :=
            ((dedupAcc_mem _ _ _).mp ((sortLower_perm _).mem_iff.mp hy)).1
          exact hinj x hx' y hy' hxy

/-- Counterexample to C7 as stated: the page names `A.md` and `a.md` collide
after lowercasing, and the stable sort keeps their insertion order, so two
catalogs with the same section-to-page-set content produce different tocs. -/
theorem write_site_toc_order_dependent :
    ([("A.md", "x"), ("a.md", "y")] : PageMap).Perm [("a.md", "y"), ("A.md", "x")] ∧
    (write_site [("s", [("A.md", "x"), ("a.md", "y")])] "" "docs").2 ≠
      (write_site [("s", [("a.md", "y"), ("A.md", "x")])] "" "docs").2 := by
  constructor
  · exact List.Perm.swap _ _ _
  · decide

/-- Witness for the amended C7: both conjuncts at concrete inputs (the
determinism conjunct across two different output locations). -/
theorem write_site_toc_sorted_dedup_det_witness :
    (∃ l, alookup "s" (write_site [("s", [("B.md", "x"), ("a.md", "y")])] "/o" "docs").2
        = some l ∧ l.Nodup ∧
        (∀ x, x ∈ l ↔ x ∈ ([("B.md", "x"), ("a.md", "y")] : PageMap).map Prod.fst) ∧
        l.Pairwise (fun a b => lowerLe a b = true)) ∧
    (∀ sect, alookup sect
        (write_site [("s", [("B.md", "x"), ("a.md", "y")])] "/o1" "docs").2 =
      alookup sect (write_site [("s", [("B.md", "x"), ("a.md", "y")])] "/o2" "docs").2) := by
  constructor
  · exact write_site_toc_sorted_dedup_det.1 [("s", [("B.md", "x"), ("a.md", "y")])]
      "/o" "docs" "s" [("B.md", "x"), ("a.md", "y")] (by decide)
  · refine write_site_toc_sorted_dedup_det.2 [("s", [("B.md", "x"), ("a.md", "y")])]
      [("s", [("B.md", "x"), ("a.md", "y")])] "/o1" "/o2" "docs" "docs"
      (fun sect => Iff.rfl) ?_
    intro sect pgs1 pgs2 ha hb
    rw [ha] at hb
    injection hb with hb
    subst hb
    exact ⟨List.Perm.refl _, by
      by_cases hs : ("s" : String) = sect
      · simp only [alookup, if_pos hs] at ha
        injection ha with ha
        subst ha
        decide
      · simp only [alookup, if_neg hs] at ha
        exact Option.noConfusion ha⟩

/-- `pyJoin` at the level of character lists. -/
def joinL (a b : List Char) : List Char :=
  if b.head? = some '/' then b
  else if a = [] then b
  else if a.getLast? = some '/' then a ++ b
  else a ++ '/' :: b

theorem pyJoin_eq (a b : String) : pyJoin a b = ⟨joinL a.data b.data⟩ := by
  unfold pyJoin joinL
  split_ifs <;> first
    | rfl
    | exact congrArg String.mk (by simp)

/-- Joining onto the empty path is the identity (CPython posixpath). -/
theorem pyJoin_empty_left (b : String) : pyJoin "" b = b := by
  unfold pyJoin
  by_cases h : b.data.head? = some '/'
  · rw [if_pos h]
  · rw [if_neg h, if_pos rfl]

theorem joinL_ne_nil (a b : List Char) (ha : a ≠ []) (hb : b.head? ≠ some '/') :
    joinL a b ≠ [] := by
  unfold joinL
  rw [if_neg hb, if_neg ha]
  split_ifs <;> simp [ha]

theorem joinL_head (a b : List Char) (ha : a ≠ []) (hb : b.head? ≠ some '/') :
    (joinL a b).head? = a.head? := by
  unfold joinL
  rw [if_neg hb, if_neg ha]
  cases a with
  | nil => exact absurd rfl ha
  | cons a0 as => split_ifs <;> rfl

theorem joinL_nil_left (b : List Char) (hb : b.head? ≠ some '/') : joinL [] b = b := by
  unfold joinL
  rw [if_neg hb, if_pos rfl]

theorem joinL_cons_notabs (a b : List Char) (ha : a ≠ []) (hb : b.head? ≠ some '/') :
    joinL a b = if a.getLast? = some '/' then a ++ b else a ++ '/' :: b := by
  unfold joinL
  rw [if_neg hb, if_neg ha]

/-- Associativity of posixpath join when the middle and right components are
relative and the middle is non-empty. -/
theorem joinL_assoc : ∀ (a b c : List Char), b ≠ [] → b.head? ≠ some '/' →
    c.head? ≠ some '/' → joinL (joinL a b) c = joinL a (joinL b c) := by
  intro a b c hbne hb hc
  cases b with
  | nil => exact absurd rfl hbne
  | cons b0 bs =>
  have hb0 : ¬ b0 = '/' := fun h => hb (by rw [List.head?_cons, h])
  have hbc : joinL (b0 :: bs) c =
      if (b0 :: bs).getLast? = some '/' then (b0 :: bs) ++ c
      else (b0 :: bs) ++ '/' :: c :=
    joinL_cons_notabs _ _ (by simp) hc
  have hbc_head : (joinL (b0 :: bs) c).head? = some b0 := by
    rw [hbc]; split_ifs <;> rfl
  have hbc_nabs : (joinL (b0 :: bs) c).head? ≠ some '/' := by
    rw [hbc_head]; simp [hb0]
  by_cases ha : a = []
  · subst ha
    rw [joinL_nil_left _ hb, joinL_nil_left _ hbc_nabs]
  · rw [joinL_cons_notabs a (b0 :: bs) ha hb,
      joinL_cons_notabs a (joinL (b0 :: bs) c) ha hbc_nabs, hbc]
    by_cases hal : a.getLast? = some '/'
    · rw [if_pos hal, if_pos hal]
      have hne : a ++ b0 :: bs ≠ [] := by simp
      have hlast : (a ++ b0 :: bs).getLast? = (b0 :: bs).getLast? :=
        List.getLast?_append_of_ne_nil a (by simp)
      rw [joinL_cons_notabs _ _ hne hc, hlast]
      by_cases hbl : (b0 :: bs).getLast? = some '/'
      · rw [if_pos hbl, if_pos hbl]
        simp
      · rw [if_neg hbl, if_neg hbl]
        simp
    · rw [if_neg hal, if_neg hal]
      have hne : a ++ '/' :: b0 :: bs ≠ [] := by simp
      have hlast : (a ++ '/' :: b0 :: bs).getLast? = (b0 :: bs).getLast? := by
        rw [List.getLast?_append_of_ne_nil a (by simp)]
        exact List.getLast?_cons_cons ..
      rw [joinL_cons_notabs _ _ hne hc, hlast]
      by_cases hbl : (b0 :: bs).getLast? = some '/'
      · rw [if_pos hbl, if_pos hbl]
        simp
      · rw [if_neg hbl, if_neg hbl]
        simp

/-- The full path written for one page factors through the location. -/
theorem write_site_path (loc docsdir sect page : String)
    (hd_ne : docsdir.data ≠ []) (hd : docsdir.data.head? ≠ some '/')
    (hs : sect.data.head? ≠ some '/') (hp : page.data.head? ≠ some '/') :
    pyJoin (pyJoin (pyJoin loc docsdir) sect) page =
      pyJoin loc (pyJoin (pyJoin (pyJoin "" docsdir) sect) page) := by
  rw [pyJoin_empty_left]
  have hds_ne : joinL docsdir.data sect.data ≠ [] := joinL_ne_nil _ _ hd_ne hs
  have hds_head : (joinL docsdir.data sect.data).head? ≠ some '/' := by
    rw [joinL_head _ _ hd_ne hs]
    exact hd
  rw [pyJoin_eq docsdir sect, pyJoin_eq loc docsdir]
  rw [pyJoin_eq (⟨joinL loc.data docsdir.data⟩ : String) sect]
  rw [pyJoin_eq (⟨joinL docsdir.data sect.data⟩ : String) page]
  rw [pyJoin_eq (⟨joinL (joinL loc.data docsdir.data) sect.data⟩ : String) page]
  rw [pyJoin_eq loc (⟨joinL (joinL docsdir.data sect.data) page.data⟩ : String)]
  apply congrArg String.mk
  have h1 : joinL (joinL loc.data docsdir.data) sect.data =
      joinL loc.data (joinL docsdir.data sect.data) :=
    joinL_assoc loc.data docsdir.data sect.data hd_ne hd hs
  rw [h1]
  exact joinL_assoc loc.data (joinL docsdir.data sect.data) page.data hds_ne hds_head hp

/-- C9: `write_site` is deterministic in its `sitepages` argument, and the
output location enters the result only as a path prefix: the writes at any
location are the location-independent relative writes with `pyJoin loc ·`
applied to every path, and the toc does not depend on the location at all.
Hence two runs on the same SitePages into two different empty directories
produce identical relative (path, content) pairs and equal tocs.  (The
hypotheses say the docs directory name is non-empty and that no section,
page or docs-directory name is an absolute path.) -/
theorem write_site_deterministic
    (sp : SitePages) (loc1 loc2 docsdir : String)
    (hd_ne : docsdir.data ≠ []) (hd : docsdir.data.head? ≠ some '/')
    (hsect : ∀ sec ∈ sp, sec.1.data.head? ≠ some '/')
    (hpages : ∀ sec ∈ sp, ∀ pg ∈ sec.2, pg.1.data.head? ≠ some '/') :
    (write_site sp loc1 docsdir).1 =
      ((write_site sp "" docsdir).1).map (fun w => (pyJoin loc1 w.1, w.2)) ∧
    (write_site sp loc1 docsdir).2 = (write_site sp loc2 docsdir).2 := by
  induction sp with
  | nil => exact ⟨rfl, rfl⟩
  | cons sec rest ih =>
    obtain ⟨ih1, ih2⟩ := ih (fun s hs => hsect s (List.mem_cons_of_mem _ hs))
      (fun s hs pg hpg => hpages s (List.mem_cons_of_mem _ hs) pg hpg)
    constructor
    · simp only [write_site, List.map_append, List.map_map]
      refine congrArg₂ (· ++ ·) ?_ ih1
      apply List.map_congr_left
      intro pg hpg
      have h := write_site_path loc1 docsdir sec.1 pg.1 hd_ne hd
        (hsect sec (List.mem_cons_self _ _))
        (hpages sec (List.mem_cons_self _ _) pg hpg)
      simp only [Function.comp]
      rw [h]
    · simp only [write_site]
      rw [ih2]

/-- Witness for C9 at a concrete two-page catalog and two locations. -/
theorem write_site_deterministic_witness :
    (write_site [("s", [("a.md", "x"), ("b.md", "y")])] "/out1" "docs").1 =
      ((write_site [("s", [("a.md", "x"), ("b.md", "y")])] "" "docs").1).map
        (fun w => (pyJoin "/out1" w.1, w.2)) ∧
    (write_site [("s", [("a.md", "x"), ("b.md", "y")])] "/out1" "docs").2 =
      (write_site [("s", [("a.md", "x"), ("b.md", "y")])] "/out2" "docs").2 := by
  exact write_site_deterministic [("s", [("a.md", "x"), ("b.md", "y")])]
    "/out1" "/out2" "docs" (by decide) (by decide) (by decide) (by decide)

/-! ### Aliasing of `make_interlinks` (lines 110-148)

`newpages = pages` (line 113) copies a reference, and `replace_regex_link`
assigns `pages[subdir][page] = content` (line 147) through it, so the
caller's dict is mutated in place and the returned value is the same object.
To talk about object identity, the catalog is lifted into an explicit heap
of references; the heap-level functions below are the state-passing
translation of the Python code, with every write going through the reference
that was passed in. -/

/-- A heap mapping references to site catalogs. -/
abbrev Heap := List (Nat × SitePages)

def hlookup (r : Nat) : Heap → Option SitePages
  | [] => none
  | (r', v) :: t => if r' = r then some v else hlookup r t

def hset (r : Nat) (v : SitePages) : Heap → Heap
  | [] => [(r, v)]
  | (r', v') :: t => if r' = r then (r', v) :: t else (r', v') :: hset r v t

/-- Heap-level `replace_regex_link`: reads the dict through `r` and writes
the updated entries back through the same reference. -/
def replace_regex_linkH (h : Heap) (r : Nat) (regex basename link : String) : Heap :=
  match hlookup r h with
  | none => h
  | some pages => hset r (replace_regex_link pages regex basename link) h

/-- Heap-level `make_interlinks`: `newpages = pages` aliases the argument,
every substitution is applied through that reference, and the same
reference is returned. -/
def make_interlinksH (h : Heap) (r : Nat) : Nat × Heap :=
  match hlookup r h with
  | none => (r, h)
  | some pages =>
    (r, (interlinkTriples pages).foldl
      (fun acc tr => replace_regex_linkH acc r tr.1 tr.2.1 tr.2.2) h)

theorem hlookup_hset_self (r : Nat) (v : SitePages) (h : Heap) :
    hlookup r (hset r v h) = some v := by
  induction h with
  | nil => simp [hset, hlookup]
  | cons hd tl ih =>
    by_cases he : hd.1 = r
    · simp [hset, hlookup, he]
    · simp [hset, hlookup, he, ih]

theorem hset_hset (r : Nat) (a b : SitePages) (h : Heap) :
    hset r a (hset r b h) = hset r a h := by
  induction h with
  | nil => simp [hset]
  | cons hd tl ih =>
    by_cases he : hd.1 = r
    · simp [hset, he]
    · simp [hset, he, ih]

theorem hset_lookup_id (r : Nat) (v : SitePages) :
    ∀ h : Heap, hlookup r h = some v → hset r v h = h := by
  intro h
  induction h with
  | nil => intro hc; exact Option.noConfusion hc
  | cons hd tl ih =>
    intro hl
    by_cases he : hd.1 = r
    · obtain ⟨k, w⟩ := hd
      simp only at he
      subst he
      simp only [hlookup, if_pos rfl] at hl
      injection hl with hl
      subst hl
      simp [hset]
    · simp only [hlookup, if_neg he] at hl
      simp [hset, he, ih hl]

/-- The heap-level rewrite fold simulates the pure one through reference `r`. -/
theorem foldl_replaceH (r : Nat) :
    ∀ (trs : List (String × String × String)) (h : Heap) (pages : SitePages),
      hlookup r h = some pages →
      trs.foldl (fun acc tr => replace_regex_linkH acc r tr.1 tr.2.1 tr.2.2) h =
        hset r (trs.foldl
          (fun acc tr => replace_regex_link acc tr.1 tr.2.1 tr.2.2) pages) h := by
  intro trs
  induction trs with
  | nil =>
    intro h pages hr
    exact (hset_lookup_id r pages h hr).symm
  | cons tr rest ih =>
    intro h pages hr
    simp only [List.foldl_cons]
    have hstep : replace_regex_linkH h r tr.1 tr.2.1 tr.2.2 =
        hset r (replace_regex_link pages tr.1 tr.2.1 tr.2.2) h := by
      unfold replace_regex_linkH
      rw [hr]
    rw [hstep, ih _ _ (hlookup_hset_self r _ h), hset_hset]

/-- C8 (amended): `make_interlinks` is not pure — `newpages = pages` aliases
the input and the rewrites happen in place.  At heap level the call returns
the very reference it was given, and afterwards the caller-held structure
holds the rewritten catalog `make_interlinks pages`: the input is neither
left unchanged nor distinct from the returned value; the caller and the
return value see the same rewritten dict. -/
theorem make_interlinksH_in_place (h : Heap) (r : Nat) (pages : SitePages)
    (hr : hlookup r h = some pages) :
    make_interlinksH h r = (r, hset r (make_interlinks pages) h) := by
  unfold make_interlinksH make_interlinks
  rw [hr]
  dsimp only
  rw [foldl_replaceH r (interlinkTriples pages) h pages hr]

/-- Counterexample to C8 as stated: on the repository's own interlink test
input, the returned reference is the argument itself, and the caller's heap
cell no longer holds the original catalog after the call. -/
theorem make_interlinksH_mutates_caller :
    (make_interlinksH
        [(0, [("components-grid", [("fmonagent.md", "")]),
              ("components", [("icinga.md", "I refer to `fmonagent`.")])])] 0).1 = 0 ∧
    hlookup 0 (make_interlinksH
        [(0, [("components-grid", [("fmonagent.md", "")]),
              ("components", [("icinga.md", "I refer to `fmonagent`.")])])] 0).2 ≠
      some [("components-grid", [("fmonagent.md", "")]),
            ("components", [("icinga.md", "I refer to `fmonagent`.")])] := by
  constructor
  · decide
  · decide

/-- Witness for the amended C8 at the same concrete input. -/
theorem make_interlinksH_in_place_witness :
    make_interlinksH
        [(0, [("components-grid", [("fmonagent.md", "")]),
              ("components", [("icinga.md", "I refer to `fmonagent`.")])])] 0 =
      (0, hset 0 (make_interlinks
          [("components-grid", [("fmonagent.md", "")]),
           ("components", [("icinga.md", "I refer to `fmonagent`.")])])
        [(0, [("components-grid", [("fmonagent.md", "")]),
              ("components", [("icinga.md", "I refer to `fmonagent`.")])])]) := by
  exact make_interlinksH_in_place _ 0
    [("components-grid", [("fmonagent.md", "")]),
     ("components", [("icinga.md", "I refer to `fmonagent`.")])] (by decide)

/-! ### `check_input` (lines 55-73) -/

/-- Abstract filesystem node, for the `os.path` calls of `check_input`. -/
inductive FSNode where
  | missing
  | file
  | dir (entries : List String)
deriving DecidableEq

/-- `os.path.exists`. -/
def fsExists (fs : String → FSNode) (p : String) : Bool :=
  fs p ≠ FSNode.missing

/-- `os.listdir`: returns a directory's entries; raises `OSError` on a
regular file (`ENOTDIR`) or a missing path (`ENOENT`). -/
def fsListdir (fs : String → FSNode) (p : String) : Except String (List String) :=
  match fs p with
  | .dir l => .ok l
  | .file => .error "ENOTDIR"
  | .missing => .error "ENOENT"

/-- `check_input(sourceloc, outputloc)` (lines 55-73); empty strings are
falsy, and the final emptiness test calls `os.listdir(outputloc)`. -/
def check_input (fs : String → FSNode) (sourceloc outputloc : String) :
    Except String Bool :=
  if sourceloc = "" then .ok false
  else if outputloc = "" then .ok false
  else if ¬ fsExists fs sourceloc then .ok false
  else if ¬ fsExists fs outputloc then .ok false
  else match fsListdir fs outputloc with
    | .error e => .error e
    | .ok l => if ¬ (l = []) then .ok false else .ok true

/-- C10: when the source location exists and the output location exists but
is a regular file, `check_input` does not return `false` (or any boolean)
with a diagnostic — the emptiness test lists the output location, and
`os.listdir` on a file raises an uncaught `OSError` (`ENOTDIR`). -/
theorem check_input_output_file_raises (fs : String → FSNode)
    (sourceloc outputloc : String)
    (hs : sourceloc ≠ "") (ho : outputloc ≠ "")
    (hsrc : fs sourceloc ≠ FSNode.missing)
    (hout : fs outputloc = FSNode.file) :
    check_input fs sourceloc outputloc = .error "ENOTDIR" := by
  unfold check_input fsExists fsListdir
  rw [if_neg hs, if_neg ho, if_neg (by simp [hsrc]),
    if_neg (by simp [hout]), hout]

/-- Witness for C10 on a concrete two-path filesystem. -/
theorem check_input_output_file_raises_witness :
    check_input
        (fun p => if p = "/src" then FSNode.dir ["repo"]
                  else if p = "/out" then FSNode.file else FSNode.missing)
        "/src" "/out" = .error "ENOTDIR" := by
  exact check_input_output_file_raises _ "/src" "/out" (by decide) (by decide)
    (by simp) (by simp)

end QuattorDocBuild
